import Mathlib

/-!
Shallow embedding of `NormalizedSoftmaxLoss` from
`src/pytorch-metric-learning/src/pytorch_metric_learning/losses/normalized_softmax_loss.py`,
over exact real arithmetic.

Tensors become matrices over `ℝ` indexed by `Fin`:
`embeddings : Matrix (Fin B) (Fin d) ℝ`, `W : Matrix (Fin d) (Fin C) ℝ`,
`labels : Fin B → Fin C`.

The two external collaborators, `lmu.convert_to_weights` and
`self.regularization_loss` (framework code living outside this module), are
abstract parameters of the embedding: `convertToWeights` maps an
`indices_tuple` (an arbitrary type `ι`) and the labels to a per-sample weight
vector, and `regularizationLoss` maps a matrix to a scalar penalty.
-/

noncomputable section

open Filter

/-- `torch.mean` of a length-`B` vector: sum divided by `B`. -/
def batchMean {B : ℕ} (v : Fin B → ℝ) : ℝ := (∑ i, v i) / B

/-- The default `eps` of `torch.nn.functional.normalize`, `1e-12`. -/
def eps : ℝ := 1 / 10 ^ 12

/-- L2 norm of a real vector. -/
def vecNorm {d : ℕ} (v : Fin d → ℝ) : ℝ := Real.sqrt (∑ k, v k ^ 2)

/-- L2 norm of column `j` of `W` (the norm taken along `dim=0`). -/
def colNorm {d C : ℕ} (W : Matrix (Fin d) (Fin C) ℝ) (j : Fin C) : ℝ :=
  vecNorm (fun k => W k j)

/-- `torch.nn.functional.normalize(W, p=2, dim=0)`: each entry is divided by
`max(‖column‖₂, eps)` for its column. -/
def l2normalize {d C : ℕ} (W : Matrix (Fin d) (Fin C) ℝ) :
    Matrix (Fin d) (Fin C) ℝ :=
  fun k j => W k j / max (colNorm W j) eps

/-- `torch.nn.CrossEntropyLoss(reduction='none')` on one sample: the negative
log-softmax of the logits `z` at the label `y`, i.e.
`log (∑ j, exp (z j)) - z y`. -/
def crossEntropy {C : ℕ} (z : Fin C → ℝ) (y : Fin C) : ℝ :=
  Real.log (∑ j, Real.exp (z j)) - z y

/-- `torch.matmul(embeddings, normalized_W)`: the similarity matrix before the
temperature is applied. -/
def simMatrix {B d C : ℕ} (embeddings : Matrix (Fin B) (Fin d) ℝ)
    (W : Matrix (Fin d) (Fin C) ℝ) : Matrix (Fin B) (Fin C) ℝ :=
  embeddings * l2normalize W

/-- `exponent = torch.matmul(embeddings, normalized_W) / self.temperature`. -/
def exponentF {B d C : ℕ} (embeddings : Matrix (Fin B) (Fin d) ℝ)
    (W : Matrix (Fin d) (Fin C) ℝ) (temperature : ℝ) (i : Fin B) (j : Fin C) :
    ℝ :=
  simMatrix embeddings W i j / temperature

/-- Body of `NormalizedSoftmaxLoss.compute_loss`, line by line:
miner weights from the collaborator, column-normalized `W`, scaled similarity
logits, per-sample cross-entropy without reduction, and finally the mean of the
weighted per-sample losses plus `regularization_loss(W.t())`. -/
def computeLoss {ι : Type} {B d C : ℕ}
    (convertToWeights : ι → (Fin B → Fin C) → Fin B → ℝ)
    (regularizationLoss : Matrix (Fin C) (Fin d) ℝ → ℝ)
    (W : Matrix (Fin d) (Fin C) ℝ) (temperature : ℝ)
    (embeddings : Matrix (Fin B) (Fin d) ℝ) (labels : Fin B → Fin C)
    (indicesTuple : ι) : ℝ :=
  let minerWeights : Fin B → ℝ := convertToWeights indicesTuple labels
  let unweightedLoss : Fin B → ℝ :=
    fun i => crossEntropy (fun j => exponentF embeddings W temperature i j)
      (labels i)
  batchMean (fun i => unweightedLoss i * minerWeights i) +
    regularizationLoss W.transpose

/-- The state a `NormalizedSoftmaxLoss` object carries across calls: the
temperature fixed at construction and the learned parameter matrix `W`. -/
structure NormalizedSoftmaxLoss (d C : ℕ) where
  temperature : ℝ
  W : Matrix (Fin d) (Fin C) ℝ

/-- `__init__`: stores `temperature` as given (no validation) and `W` as the
random initial matrix produced by `torch.randn`, modelled as the explicit
argument `randW`. -/
def NormalizedSoftmaxLoss.init {d C : ℕ} (temperature : ℝ)
    (randW : Matrix (Fin d) (Fin C) ℝ) : NormalizedSoftmaxLoss d C :=
  { temperature := temperature, W := randW }

/-- The method `compute_loss` reading `self.W` and `self.temperature`. -/
def NormalizedSoftmaxLoss.computeLossM {ι : Type} {B d C : ℕ}
    (s : NormalizedSoftmaxLoss d C)
    (convertToWeights : ι → (Fin B → Fin C) → Fin B → ℝ)
    (regularizationLoss : Matrix (Fin C) (Fin d) ℝ → ℝ)
    (embeddings : Matrix (Fin B) (Fin d) ℝ) (labels : Fin B → Fin C)
    (indicesTuple : ι) : ℝ :=
  computeLoss convertToWeights regularizationLoss s.W s.temperature embeddings
    labels indicesTuple

/-- State-passing form of the method: the body contains no assignment to
`self` and no in-place tensor operation, so the state threaded through is
returned unchanged alongside the scalar result. -/
def NormalizedSoftmaxLoss.computeLossStep {ι : Type} {B d C : ℕ}
    (s : NormalizedSoftmaxLoss d C)
    (convertToWeights : ι → (Fin B → Fin C) → Fin B → ℝ)
    (regularizationLoss : Matrix (Fin C) (Fin d) ℝ → ℝ)
    (embeddings : Matrix (Fin B) (Fin d) ℝ) (labels : Fin B → Fin C)
    (indicesTuple : ι) : ℝ × NormalizedSoftmaxLoss d C :=
  (s.computeLossM convertToWeights regularizationLoss embeddings labels
    indicesTuple, s)

/-- Cosine similarity of two vectors. -/
def cosineSim {d : ℕ} (u v : Fin d → ℝ) : ℝ :=
  (∑ k, u k * v k) / (vecNorm u * vecNorm v)

/-- Normalization as worded by the specification: every column of `W` is
rescaled to unit L2 norm, with no epsilon guard. -/
def specNormalize {d C : ℕ} (W : Matrix (Fin d) (Fin C) ℝ) :
    Matrix (Fin d) (Fin C) ℝ :=
  fun k j => W k j / colNorm W j

/-- Reference definition following the specification text: every column of `W`
is rescaled to unit L2 norm (division by the exact column norm), the logits are
`(embeddings @ normalized_W) / temperature`, and the loss is the plain mean of
the standard per-sample cross-entropy. -/
def referenceLoss {B d C : ℕ} (W : Matrix (Fin d) (Fin C) ℝ)
    (temperature : ℝ) (embeddings : Matrix (Fin B) (Fin d) ℝ)
    (labels : Fin B → Fin C) : ℝ :=
  batchMean (fun i =>
    crossEntropy
      (fun j => (embeddings * specNormalize W) i j / temperature)
      (labels i))


/-- Concrete `1 × 1` zero matrix used in concrete instances. -/
def zeroMat : Matrix (Fin 1) (Fin 1) ℝ := Matrix.of fun _ _ => 0

/-- Concrete `1 × 1` all-ones matrix used in concrete instances. -/
def oneMat : Matrix (Fin 1) (Fin 1) ℝ := Matrix.of fun _ _ => 1

/-- Concrete `1 × 1` all-twos matrix used in concrete instances. -/
def twoMat : Matrix (Fin 1) (Fin 1) ℝ := Matrix.of fun _ _ => 2

/-- Concrete all-ones weight collaborator used in concrete instances. -/
def onesWeights : Unit → (Fin 1 → Fin 1) → Fin 1 → ℝ := fun _ _ _ => 1

/-- Concrete zero regularizer used in concrete instances. -/
def zeroReg : Matrix (Fin 1) (Fin 1) ℝ → ℝ := fun _ => 0

/-- Concrete label vector used in concrete instances. -/
def zeroLabels : Fin 1 → Fin 1 := fun _ => 0

/-- `W` with its columns permuted by `p`: column `p j` of the result is
column `j` of `W`. -/
def permCols {d C : ℕ} (p : Equiv.Perm (Fin C))
    (W : Matrix (Fin d) (Fin C) ℝ) : Matrix (Fin d) (Fin C) ℝ :=
  Matrix.of fun k j => W k (p.symm j)

/-- The transposition of the two classes of `Fin 2`. -/
def swap01 : Equiv.Perm (Fin 2) := Equiv.swap 0 1

/-- Concrete `1 × 2` matrix with columns `[1]` and `[2]`. -/
def Wc : Matrix (Fin 1) (Fin 2) ℝ := Matrix.of fun _ j => if j = 0 then 1 else 2

/-- Concrete `1 × 2` matrix whose first column has the tiny norm `eps / 2`. -/
def Wtiny : Matrix (Fin 1) (Fin 2) ℝ :=
  Matrix.of fun _ j => if j = 0 then eps / 2 else 1

/-- Concrete all-ones weight collaborator for two classes. -/
def onesWeights2 : Unit → (Fin 1 → Fin 2) → Fin 1 → ℝ := fun _ _ _ => 1

/-- Concrete all-zeros weight collaborator for two classes. -/
def zeroWeights2 : Unit → (Fin 1 → Fin 2) → Fin 1 → ℝ := fun _ _ _ => 0

/-- Concrete zero regularizer for two classes. -/
def zeroReg2 : Matrix (Fin 2) (Fin 1) ℝ → ℝ := fun _ => 0

/-- Concrete regularizer reading the top-left entry of its argument. -/
def regPick : Matrix (Fin 2) (Fin 1) ℝ → ℝ := fun M => M 0 0

/-- Concrete two-class label vector assigning class `0`. -/
def yc : Fin 1 → Fin 2 := fun _ => 0

lemma eps_pos : 0 < eps := by norm_num [eps]

lemma vecNorm_nonneg {d : ℕ} (v : Fin d → ℝ) : 0 ≤ vecNorm v :=
  Real.sqrt_nonneg _

lemma vecNorm_eq_zero {d : ℕ} {v : Fin d → ℝ} (h : vecNorm v = 0) (k : Fin d) :
    v k = 0 := by
  have hsum : (∑ l, v l ^ 2) = 0 := by
    have h0 : (0 : ℝ) ≤ ∑ l, v l ^ 2 :=
      Finset.sum_nonneg fun l _ => sq_nonneg _
    have := (Real.sqrt_eq_zero h0).mp h
    exact this
  have hk : v k ^ 2 = 0 :=
    (Finset.sum_eq_zero_iff_of_nonneg fun l _ => sq_nonneg (v l)).mp hsum k
      (Finset.mem_univ k)
  exact (pow_eq_zero_iff two_ne_zero).mp hk

lemma vecNorm_div {d : ℕ} (v : Fin d → ℝ) (c : ℝ) (hc : 0 ≤ c) :
    vecNorm (fun k => v k / c) = vecNorm v / c := by
  unfold vecNorm
  rw [show (∑ k, (v k / c) ^ 2) = (∑ k, v k ^ 2) / c ^ 2 by
        simp only [div_pow]
        rw [← Finset.sum_div],
    Real.sqrt_div (Finset.sum_nonneg fun k _ => sq_nonneg _),
    Real.sqrt_sq hc]

lemma colNorm_unit {d C : ℕ} (W : Matrix (Fin d) (Fin C) ℝ) (j : Fin C)
    (hj : eps ≤ colNorm W j) : colNorm (l2normalize W) j = 1 := by
  have h0 : 0 < colNorm W j := lt_of_lt_of_le eps_pos hj
  have hl2 : (fun k => l2normalize W k j) = fun k => W k j / colNorm W j := by
    funext k
    show W k j / max (colNorm W j) eps = W k j / colNorm W j
    rw [max_eq_left hj]
  show vecNorm (fun k => l2normalize W k j) = 1
  rw [hl2, vecNorm_div _ _ h0.le]
  exact div_self h0.ne'

lemma eps_le_one : eps ≤ 1 := by
  rw [eps]
  norm_num

lemma eps_le_colNorm_oneMat : ∀ j, eps ≤ colNorm oneMat j := by
  intro j
  have h1 : colNorm oneMat j = 1 := by
    show Real.sqrt (∑ k : Fin 1, oneMat k j ^ 2) = 1
    rw [Fin.sum_univ_one, show oneMat 0 j = 1 from rfl, one_pow,
      Real.sqrt_one]
  rw [h1]
  exact eps_le_one

lemma eps_le_colNorm_Wtiny_one : eps ≤ colNorm Wtiny 1 := by
  have h1 : colNorm Wtiny 1 = 1 := by
    show Real.sqrt (∑ k : Fin 1, Wtiny k 1 ^ 2) = 1
    rw [Fin.sum_univ_one, show Wtiny 0 1 = 1 from rfl, one_pow,
      Real.sqrt_one]
  rw [h1]
  exact eps_le_one

lemma crossEntropy_nonneg {C : ℕ} (z : Fin C → ℝ) (y : Fin C) :
    0 ≤ crossEntropy z y := by
  have hS : Real.exp (z y) ≤ ∑ j, Real.exp (z j) :=
    Finset.single_le_sum (fun j _ => (Real.exp_pos (z j)).le)
      (Finset.mem_univ y)
  have hSpos : 0 < ∑ j, Real.exp (z j) :=
    lt_of_lt_of_le (Real.exp_pos (z y)) hS
  have h := (Real.le_log_iff_exp_le hSpos).mpr hS
  unfold crossEntropy
  linarith

lemma crossEntropy_le {C : ℕ} (z : Fin C → ℝ) (y : Fin C) (M : ℝ)
    (hM : ∀ j, |z j| ≤ M) : crossEntropy z y ≤ Real.log C + 2 * M := by
  have hCpos : 0 < C := y.pos
  have hS : (∑ j, Real.exp (z j)) ≤ C * Real.exp M :=
    calc (∑ j, Real.exp (z j)) ≤ ∑ _j : Fin C, Real.exp M :=
          Finset.sum_le_sum fun j _ =>
            Real.exp_le_exp.mpr (le_of_abs_le (hM j))
      _ = C * Real.exp M := by
          rw [Finset.sum_const, Finset.card_univ, Fintype.card_fin,
            nsmul_eq_mul]
  have hSpos : 0 < ∑ j, Real.exp (z j) :=
    Finset.sum_pos (fun j _ => Real.exp_pos _) ⟨y, Finset.mem_univ y⟩
  have hlog : Real.log (∑ j, Real.exp (z j)) ≤ Real.log C + M := by
    have h1 := Real.log_le_log hSpos hS
    rwa [Real.log_mul (by positivity) (Real.exp_ne_zero M),
      Real.log_exp] at h1
  have hzy : -M ≤ z y := neg_le_of_abs_le (hM y)
  unfold crossEntropy
  linarith

lemma abs_batchMean_le {B : ℕ} (hB : 0 < B) (v : Fin B → ℝ) (b : ℝ)
    (hv : ∀ i, |v i| ≤ b) : |batchMean v| ≤ b := by
  have hBpos : (0 : ℝ) < B := Nat.cast_pos.mpr hB
  unfold batchMean
  rw [abs_div, abs_of_nonneg hBpos.le, div_le_iff₀ hBpos]
  calc |∑ i, v i| ≤ ∑ i, |v i| := Finset.abs_sum_le_sum_abs _ _
    _ ≤ ∑ _i : Fin B, b := Finset.sum_le_sum fun i _ => hv i
    _ = B * b := by
        rw [Finset.sum_const, Finset.card_univ, Fintype.card_fin,
          nsmul_eq_mul]
    _ = b * B := mul_comm _ _

/-- C1: `compute_loss` returns the mean over the batch of per-sample
cross-entropy (no reduction) times the per-sample mining weights from
`convert_to_weights(indices_tuple, labels)`, plus
`regularization_loss(W.t())`. -/
theorem C1_compute_loss_formula {ι : Type} {B d C : ℕ}
    (cw : ι → (Fin B → Fin C) → Fin B → ℝ)
    (reg : Matrix (Fin C) (Fin d) ℝ → ℝ)
    (W : Matrix (Fin d) (Fin C) ℝ) (T : ℝ)
    (E : Matrix (Fin B) (Fin d) ℝ) (y : Fin B → Fin C) (idx : ι) :
    computeLoss cw reg W T E y idx =
      (∑ i, crossEntropy (fun j => exponentF E W T i j) (y i) *
        cw idx y i) / B + reg W.transpose := by
  rfl

/-- C2 (counterexample): the claim that every column of `W` is rescaled to
unit L2 norm fails for the zero matrix: its (only) normalized column has norm
`0`, not `1`, because `F.normalize` divides by `max(0, eps) = eps`. -/
theorem C2_counterexample : colNorm (l2normalize zeroMat) 0 ≠ 1 := by
  have hz : ∀ k : Fin 1, l2normalize zeroMat k 0 = 0 := by
    intro k
    show (0 : ℝ) / max _ eps = 0
    rw [zero_div]
  have hcn : colNorm (l2normalize zeroMat) 0 = 0 := by
    simp [colNorm, vecNorm, hz]
  rw [hcn]
  norm_num

/-- C2 (amended, per column): any column `j` of `W` whose L2 norm is at least
`eps = 1e-12` is rescaled to unit L2 norm, and every logit at that column is
the cosine similarity between the embedding and the class column of `W`,
scaled by the embedding's own norm and by `1/temperature`; the logits are
`(embeddings @ normalized_W) / temperature`, and any column of norm below
`eps` is instead divided by `eps`. -/
theorem C2_column_normalization_cosine {B d C : ℕ}
    (W : Matrix (Fin d) (Fin C) ℝ) (T : ℝ) (E : Matrix (Fin B) (Fin d) ℝ)
    (j : Fin C) (hj : eps ≤ colNorm W j) :
    colNorm (l2normalize W) j = 1 ∧
    (∀ i j', exponentF E W T i j' = (E * l2normalize W) i j' / T) ∧
    (∀ i, exponentF E W T i j =
      cosineSim (E i) (fun k => W k j) * vecNorm (E i) / T) ∧
    (∀ j', colNorm W j' < eps → ∀ k,
      l2normalize W k j' = W k j' / eps) := by
  have hn : colNorm W j ≠ 0 := (lt_of_lt_of_le eps_pos hj).ne'
  have hcol : ∀ k, l2normalize W k j = W k j / colNorm W j := by
    intro k
    show W k j / max (colNorm W j) eps = W k j / colNorm W j
    rw [max_eq_left hj]
  refine ⟨colNorm_unit W j hj, fun i j' => rfl, fun i => ?_,
    fun j' hj' k => ?_⟩
  · by_cases ha : vecNorm (E i) = 0
    · have hz : ∀ k, E i k = 0 := vecNorm_eq_zero ha
      show simMatrix E W i j / T = _
      simp [simMatrix, Matrix.mul_apply, cosineSim, hz]
    · show simMatrix E W i j / T = _
      rw [show simMatrix E W i j = (∑ k, E i k * W k j) / colNorm W j by
        rw [simMatrix, Matrix.mul_apply]
        simp only [hcol, ← mul_div_assoc]
        rw [← Finset.sum_div]]
      rw [cosineSim]
      congr 1
      rw [show vecNorm (fun k => W k j) = colNorm W j from rfl,
        div_mul_eq_mul_div, mul_comm (vecNorm (E i)) (colNorm W j),
        mul_div_mul_right _ _ ha]
  · show W k j' / max (colNorm W j') eps = W k j' / eps
    rw [max_eq_right hj'.le]

/-- C2 (witness): the mixed matrix `Wtiny`, whose first column has norm
`eps / 2 < eps` while its second column has norm `1 ≥ eps`; the amended
theorem applies at the second column. -/
theorem C2_column_normalization_cosine_witness :
    eps ≤ colNorm Wtiny 1 ∧
    (colNorm (l2normalize Wtiny) 1 = 1 ∧
    (∀ i j', exponentF twoMat Wtiny 1 i j' =
      (twoMat * l2normalize Wtiny) i j' / 1) ∧
    (∀ i, exponentF twoMat Wtiny 1 i 1 =
      cosineSim (twoMat i) (fun k => Wtiny k 1) * vecNorm (twoMat i) / 1) ∧
    (∀ j', colNorm Wtiny j' < eps → ∀ k,
      l2normalize Wtiny k j' = Wtiny k j' / eps)) :=
  ⟨eps_le_colNorm_Wtiny_one,
    C2_column_normalization_cosine Wtiny 1 twoMat 1 eps_le_colNorm_Wtiny_one⟩

/-- C5: when `regularization_loss` returns the zero scalar on `W.t()`, the
total returned by `compute_loss` is exactly the mean of per-sample
cross-entropy times the mining weights, with nothing else added. -/
theorem C5_zero_regularization {ι : Type} {B d C : ℕ}
    (cw : ι → (Fin B → Fin C) → Fin B → ℝ)
    (reg : Matrix (Fin C) (Fin d) ℝ → ℝ)
    (W : Matrix (Fin d) (Fin C) ℝ) (T : ℝ)
    (E : Matrix (Fin B) (Fin d) ℝ) (y : Fin B → Fin C) (idx : ι)
    (hreg : reg W.transpose = 0) :
    computeLoss cw reg W T E y idx =
      batchMean (fun i =>
        crossEntropy (fun j => exponentF E W T i j) (y i) * cw idx y i) := by
  have h : computeLoss cw reg W T E y idx =
      batchMean (fun i =>
        crossEntropy (fun j => exponentF E W T i j) (y i) * cw idx y i) +
        reg W.transpose := rfl
  rw [h, hreg, add_zero]

/-- C5 (witness): concrete `1 × 1` instance with the zero regularizer. -/
theorem C5_zero_regularization_witness :
    zeroReg zeroMat.transpose = 0 ∧
    computeLoss onesWeights zeroReg zeroMat 1 zeroMat zeroLabels () =
      batchMean (fun i =>
        crossEntropy (fun j => exponentF zeroMat zeroMat 1 i j)
          (zeroLabels i) * onesWeights () zeroLabels i) :=
  ⟨rfl, C5_zero_regularization onesWeights zeroReg zeroMat 1 zeroMat
    zeroLabels () rfl⟩

/-- C7: `__init__` stores any temperature unvalidated — zero and negative
values included — and `compute_loss` divides the similarity matrix by it with
no guard: for every real temperature the stored field equals the argument and
the method returns the unguarded formula. -/
theorem C7_no_temperature_validation {ι : Type} {B d C : ℕ} (T : ℝ)
    (randW : Matrix (Fin d) (Fin C) ℝ)
    (cw : ι → (Fin B → Fin C) → Fin B → ℝ)
    (reg : Matrix (Fin C) (Fin d) ℝ → ℝ)
    (E : Matrix (Fin B) (Fin d) ℝ) (y : Fin B → Fin C) (idx : ι) :
    (NormalizedSoftmaxLoss.init T randW).temperature = T ∧
    (NormalizedSoftmaxLoss.init T randW).computeLossM cw reg E y idx =
      batchMean (fun i =>
        crossEntropy (fun j => simMatrix E randW i j / T) (y i) *
          cw idx y i) + reg randW.transpose :=
  ⟨rfl, rfl⟩

/-- C9: `compute_loss` is effect-free: in state-passing form it returns the
state unchanged, its value is a pure function of the stored `W`, the stored
temperature and its arguments, and the state consists of nothing beyond the
`temperature` and `W` fields. -/
theorem C9_effect_free {ι : Type} {B d C : ℕ}
    (s : NormalizedSoftmaxLoss d C)
    (cw : ι → (Fin B → Fin C) → Fin B → ℝ)
    (reg : Matrix (Fin C) (Fin d) ℝ → ℝ)
    (E : Matrix (Fin B) (Fin d) ℝ) (y : Fin B → Fin C) (idx : ι) :
    (s.computeLossStep cw reg E y idx).2 = s ∧
    (s.computeLossStep cw reg E y idx).1 =
      computeLoss cw reg s.W s.temperature E y idx ∧
    s = { temperature := s.temperature, W := s.W } :=
  ⟨rfl, rfl, rfl⟩

/-- C10: a zero column of `W` is mapped by the normalization to the zero
column (the divisor is `max(0, eps) = eps > 0`, so no division by zero
occurs), and that column of the normalized matrix has norm `0`, not `1`. -/
theorem C10_zero_column {d C : ℕ} (W : Matrix (Fin d) (Fin C) ℝ) (j : Fin C)
    (hj : ∀ k, W k j = 0) :
    0 < max (colNorm W j) eps ∧
    (∀ k, l2normalize W k j = 0) ∧
    colNorm (l2normalize W) j = 0 ∧
    colNorm (l2normalize W) j ≠ 1 := by
  have hz : ∀ k, l2normalize W k j = 0 := by
    intro k
    show W k j / max (colNorm W j) eps = 0
    rw [hj k, zero_div]
  have hcn : colNorm (l2normalize W) j = 0 := by
    simp [colNorm, vecNorm, hz]
  exact ⟨lt_max_of_lt_right eps_pos, hz, hcn, by rw [hcn]; norm_num⟩

/-- C10 (witness): the zero `1 × 1` matrix. -/
theorem C10_zero_column_witness :
    (∀ k : Fin 1, zeroMat k 0 = 0) ∧
    (0 < max (colNorm zeroMat 0) eps ∧
    (∀ k, l2normalize zeroMat k 0 = 0) ∧
    colNorm (l2normalize zeroMat) 0 = 0 ∧
    colNorm (l2normalize zeroMat) 0 ≠ 1) :=
  ⟨fun _ => rfl, C10_zero_column zeroMat 0 fun _ => rfl⟩

/-- C3 (counterexample): the reference definition normalizes a column by its
exact norm, while the code divides by `max(norm, eps)`; for a column of tiny
nonzero norm `eps / 2` the two losses differ even with all-ones mining weights
and a zero regularizer. -/
theorem C3_counterexample :
    computeLoss onesWeights2 zeroReg2 Wtiny 1 oneMat yc () ≠
      referenceLoss Wtiny 1 oneMat yc := by
  have hW00 : Wtiny 0 0 = eps / 2 := rfl
  have hW01 : Wtiny 0 1 = 1 := rfl
  have hc0 : colNorm Wtiny 0 = eps / 2 := by
    show Real.sqrt (∑ k : Fin 1, Wtiny k 0 ^ 2) = eps / 2
    rw [Fin.sum_univ_one, hW00]
    exact Real.sqrt_sq (half_pos eps_pos).le
  have hc1 : colNorm Wtiny 1 = 1 := by
    show Real.sqrt (∑ k : Fin 1, Wtiny k 1 ^ 2) = 1
    rw [Fin.sum_univ_one, hW01, one_pow, Real.sqrt_one]
  have hl00 : l2normalize Wtiny 0 0 = 1 / 2 := by
    show Wtiny 0 0 / max (colNorm Wtiny 0) eps = 1 / 2
    rw [hc0, max_eq_right (half_le_self eps_pos.le), hW00, div_div,
      mul_comm, div_mul_cancel_left₀ eps_pos.ne', one_div]
  have hl01 : l2normalize Wtiny 0 1 = 1 := by
    show Wtiny 0 1 / max (colNorm Wtiny 1) eps = 1
    rw [hc1, max_eq_left eps_le_one, hW01, div_one]
  have hexp : ∀ j : Fin 2, exponentF oneMat Wtiny 1 0 j =
      l2normalize Wtiny 0 j := by
    intro j
    show (oneMat * l2normalize Wtiny) 0 j / 1 = _
    rw [div_one, Matrix.mul_apply, Fin.sum_univ_one,
      show oneMat 0 0 = 1 from rfl, one_mul]
  have hv1 : computeLoss onesWeights2 zeroReg2 Wtiny 1 oneMat yc () =
      Real.log (Real.exp (1 / 2) + Real.exp 1) - 1 / 2 := by
    have h1 : computeLoss onesWeights2 zeroReg2 Wtiny 1 oneMat yc () =
        (∑ i : Fin 1, crossEntropy (fun j => exponentF oneMat Wtiny 1 i j)
          (yc i) * onesWeights2 () yc i) / ((1 : ℕ) : ℝ) +
          zeroReg2 Wtiny.transpose := rfl
    rw [h1, Fin.sum_univ_one, show onesWeights2 () yc 0 = 1 from rfl,
      mul_one, show zeroReg2 Wtiny.transpose = 0 from rfl, add_zero,
      Nat.cast_one, div_one]
    show Real.log (∑ j : Fin 2, Real.exp (exponentF oneMat Wtiny 1 0 j)) -
      exponentF oneMat Wtiny 1 0 (yc 0) = _
    rw [show yc 0 = (0 : Fin 2) from rfl, Fin.sum_univ_two, hexp 0, hexp 1,
      hl00, hl01]
  have hs0 : specNormalize Wtiny 0 0 = 1 := by
    show Wtiny 0 0 / colNorm Wtiny 0 = 1
    rw [hc0, hW00]
    exact div_self (half_pos eps_pos).ne'
  have hs1 : specNormalize Wtiny 0 1 = 1 := by
    show Wtiny 0 1 / colNorm Wtiny 1 = 1
    rw [hc1, hW01, div_one]
  have hz : ∀ j : Fin 2, (oneMat * specNormalize Wtiny) 0 j / 1 =
      specNormalize Wtiny 0 j := by
    intro j
    rw [div_one, Matrix.mul_apply, Fin.sum_univ_one,
      show oneMat 0 0 = 1 from rfl, one_mul]
  have hv2 : referenceLoss Wtiny 1 oneMat yc =
      Real.log (Real.exp 1 + Real.exp 1) - 1 := by
    have h1 : referenceLoss Wtiny 1 oneMat yc =
        (∑ i : Fin 1, crossEntropy
          (fun j => (oneMat * specNormalize Wtiny) i j / 1) (yc i)) /
          ((1 : ℕ) : ℝ) := rfl
    rw [h1, Fin.sum_univ_one, Nat.cast_one, div_one]
    show Real.log (∑ j : Fin 2,
        Real.exp ((oneMat * specNormalize Wtiny) 0 j / 1)) -
      (oneMat * specNormalize Wtiny) 0 (yc 0) / 1 = _
    rw [show yc 0 = (0 : Fin 2) from rfl, Fin.sum_univ_two, hz 0, hz 1,
      hs0, hs1]
  rw [hv1, hv2]
  intro h
  have ha : (0 : ℝ) < Real.exp (1 / 2) + Real.exp 1 := by positivity
  have hb : (0 : ℝ) < Real.exp 1 + Real.exp 1 := by positivity
  have h2 : Real.log (Real.exp (1 / 2) + Real.exp 1) + 1 / 2 =
      Real.log (Real.exp 1 + Real.exp 1) := by linarith
  have h3 : (Real.exp (1 / 2) + Real.exp 1) * Real.exp (1 / 2) =
      Real.exp 1 + Real.exp 1 := by
    have h4 := congrArg Real.exp h2
    rwa [Real.exp_add, Real.exp_log ha, Real.exp_log hb] at h4
  have h5 : Real.exp (1 / 2) * Real.exp (1 / 2) = Real.exp 1 := by
    rw [← Real.exp_add]
    norm_num
  have h6 : Real.exp 1 * Real.exp (1 / 2) = Real.exp 1 := by nlinarith
  have h7 : Real.exp (1 / 2) = 1 :=
    mul_left_cancel₀ (Real.exp_pos 1).ne' (by rw [h6, mul_one])
  have h8 : Real.exp (1 / 2) = Real.exp 0 := by rw [h7, Real.exp_zero]
  have h9 := Real.exp_injective h8
  norm_num at h9

/-- C3 (amended): if every column of `W` has L2 norm at least `eps = 1e-12`,
the mining weights are all ones and the regularizer returns `0` on `W.t()`,
then `compute_loss` equals the plain mean of the standard cross-entropy of the
cosine-similarity logits scaled by `1/temperature` (the unweighted,
unregularized reference definition). -/
theorem C3_reduces_to_reference {ι : Type} {B d C : ℕ}
    (cw : ι → (Fin B → Fin C) → Fin B → ℝ)
    (reg : Matrix (Fin C) (Fin d) ℝ → ℝ)
    (W : Matrix (Fin d) (Fin C) ℝ) (T : ℝ)
    (E : Matrix (Fin B) (Fin d) ℝ) (y : Fin B → Fin C) (idx : ι)
    (hW : ∀ j, eps ≤ colNorm W j)
    (hmw : ∀ i, cw idx y i = 1)
    (hreg : reg W.transpose = 0) :
    computeLoss cw reg W T E y idx = referenceLoss W T E y := by
  have hl2 : l2normalize W = specNormalize W := by
    funext k j
    show W k j / max (colNorm W j) eps = W k j / colNorm W j
    rw [max_eq_left (hW j)]
  have h1 : computeLoss cw reg W T E y idx =
      batchMean (fun i => crossEntropy (fun j => exponentF E W T i j)
        (y i) * cw idx y i) + reg W.transpose := rfl
  rw [h1, hreg, add_zero]
  unfold referenceLoss
  congr 1
  funext i
  rw [hmw i, mul_one]
  have h2 : (fun j => exponentF E W T i j) =
      fun j => (E * specNormalize W) i j / T := by
    funext j
    show (E * l2normalize W) i j / T = _
    rw [hl2]
  rw [h2]

/-- C3 (witness): a concrete `1 × 1` instance: unit column norm, all-ones
weights and zero regularizer, at which the amended theorem applies. -/
theorem C3_reduces_to_reference_witness :
    (∀ j, eps ≤ colNorm oneMat j) ∧
    (∀ i, onesWeights () zeroLabels i = 1) ∧
    zeroReg oneMat.transpose = 0 ∧
    computeLoss onesWeights zeroReg oneMat 1 zeroMat zeroLabels () =
      referenceLoss oneMat 1 zeroMat zeroLabels :=
  ⟨eps_le_colNorm_oneMat, fun _ => rfl, rfl,
    C3_reduces_to_reference onesWeights zeroReg oneMat 1 zeroMat zeroLabels
      () eps_le_colNorm_oneMat (fun _ => rfl) rfl⟩

/-- C4 (counterexample): permuting the columns of `W` and relabeling does not
always leave `compute_loss` unchanged, because `regularization_loss` sees the
permuted `W.t()`: with zero mining weights and a regularizer reading the
top-left entry, swapping the two columns `[1]` and `[2]` changes the loss. -/
theorem C4_counterexample :
    computeLoss zeroWeights2 regPick (permCols swap01 Wc) 1 zeroMat
        (fun i => swap01 (yc i)) () ≠
      computeLoss zeroWeights2 regPick Wc 1 zeroMat yc () := by
  have e1 : computeLoss zeroWeights2 regPick Wc 1 zeroMat yc () = 1 := by
    have h1 : computeLoss zeroWeights2 regPick Wc 1 zeroMat yc () =
        (∑ i : Fin 1, crossEntropy (fun j => exponentF zeroMat Wc 1 i j)
          (yc i) * zeroWeights2 () yc i) / ((1 : ℕ) : ℝ) +
          regPick Wc.transpose := rfl
    rw [h1, Fin.sum_univ_one, show zeroWeights2 () yc 0 = 0 from rfl,
      mul_zero, zero_div, zero_add]
    show Wc 0 0 = 1
    rfl
  have e2 : computeLoss zeroWeights2 regPick (permCols swap01 Wc) 1 zeroMat
      (fun i => swap01 (yc i)) () = 2 := by
    have h1 : computeLoss zeroWeights2 regPick (permCols swap01 Wc) 1 zeroMat
        (fun i => swap01 (yc i)) () =
        (∑ i : Fin 1, crossEntropy
          (fun j => exponentF zeroMat (permCols swap01 Wc) 1 i j)
          (swap01 (yc i)) *
          zeroWeights2 () (fun i => swap01 (yc i)) i) / ((1 : ℕ) : ℝ) +
          regPick (permCols swap01 Wc).transpose := rfl
    rw [h1, Fin.sum_univ_one,
      show zeroWeights2 () (fun i => swap01 (yc i)) 0 = 0 from rfl,
      mul_zero, zero_div, zero_add]
    show Wc 0 (swap01.symm 0) = 2
    have hs : swap01.symm (0 : Fin 2) = 1 := by
      simp [swap01, Equiv.symm_swap, Equiv.swap_apply_left]
    rw [hs]
    show (if (1 : Fin 2) = 0 then (1 : ℝ) else 2) = 2
    norm_num
  rw [e1, e2]
  norm_num

/-- C4 (amended): permuting the columns of `W` by `p` and replacing every
label `l` by `p l` leaves `compute_loss` unchanged, provided the mining
weights do not change under the relabeling (true of `convert_to_weights`,
which ignores label values) and the regularizer assigns the permuted
`W.t()` the same penalty as the original. -/
theorem C4_permutation_invariance {ι : Type} {B d C : ℕ}
    (p : Equiv.Perm (Fin C))
    (cw : ι → (Fin B → Fin C) → Fin B → ℝ)
    (reg : Matrix (Fin C) (Fin d) ℝ → ℝ)
    (W : Matrix (Fin d) (Fin C) ℝ) (T : ℝ)
    (E : Matrix (Fin B) (Fin d) ℝ) (y : Fin B → Fin C) (idx : ι)
    (hmw : cw idx (fun i => p (y i)) = cw idx y)
    (hreg : reg (permCols p W).transpose = reg W.transpose) :
    computeLoss cw reg (permCols p W) T E (fun i => p (y i)) idx =
      computeLoss cw reg W T E y idx := by
  have hexp : ∀ i j, exponentF E (permCols p W) T i j =
      exponentF E W T i (p.symm j) := by
    intro i j
    show simMatrix E (permCols p W) i j / T = simMatrix E W i (p.symm j) / T
    rfl
  have hCE : ∀ i, crossEntropy
      (fun j => exponentF E (permCols p W) T i j) (p (y i)) =
      crossEntropy (fun j => exponentF E W T i j) (y i) := by
    intro i
    show Real.log (∑ j, Real.exp (exponentF E (permCols p W) T i j)) -
        exponentF E (permCols p W) T i (p (y i)) = _
    simp only [hexp]
    rw [Equiv.sum_comp p.symm (fun j => Real.exp (exponentF E W T i j)),
      Equiv.symm_apply_apply]
    rfl
  have h1 : computeLoss cw reg (permCols p W) T E (fun i => p (y i)) idx =
      batchMean (fun i => crossEntropy
        (fun j => exponentF E (permCols p W) T i j) (p (y i)) *
        cw idx (fun i' => p (y i')) i) +
        reg (permCols p W).transpose := rfl
  have h2 : computeLoss cw reg W T E y idx =
      batchMean (fun i => crossEntropy (fun j => exponentF E W T i j)
        (y i) * cw idx y i) + reg W.transpose := rfl
  rw [h1, h2, hreg]
  have hfun : (fun i => crossEntropy
      (fun j => exponentF E (permCols p W) T i j) (p (y i)) *
      cw idx (fun i' => p (y i')) i) =
      fun i => crossEntropy (fun j => exponentF E W T i j) (y i) *
        cw idx y i := by
    funext i
    rw [hCE i, congrFun hmw i]
  rw [hfun]

/-- C4 (witness): the two-class swap applied to a concrete instance with a
label-independent weight collaborator and constant regularizer. -/
theorem C4_permutation_invariance_witness :
    (onesWeights2 () (fun i => swap01 (yc i)) = onesWeights2 () yc) ∧
    (zeroReg2 (permCols swap01 Wc).transpose = zeroReg2 Wc.transpose) ∧
    computeLoss onesWeights2 zeroReg2 (permCols swap01 Wc) 1 zeroMat
        (fun i => swap01 (yc i)) () =
      computeLoss onesWeights2 zeroReg2 Wc 1 zeroMat yc () :=
  ⟨rfl, rfl, C4_permutation_invariance swap01 onesWeights2 zeroReg2 Wc 1
    zeroMat yc () rfl rfl⟩

/-- C6: holding `embeddings`, `W` and `labels` fixed, as the temperature tends
to infinity every logit tends to `0` and every per-sample cross-entropy term
tends to `ln C`, the cross-entropy of the uniform distribution over the `C`
classes. -/
theorem C6_temperature_limit {B d C : ℕ} (E : Matrix (Fin B) (Fin d) ℝ)
    (W : Matrix (Fin d) (Fin C) ℝ) (y : Fin B → Fin C) (hC : 0 < C) :
    (∀ i j, Tendsto (fun T => exponentF E W T i j) atTop (nhds 0)) ∧
    (∀ i, Tendsto (fun T => crossEntropy
      (fun j => exponentF E W T i j) (y i)) atTop
      (nhds (Real.log C))) := by
  have hlogit : ∀ i j, Tendsto (fun T => exponentF E W T i j) atTop
      (nhds 0) := fun i j =>
    Filter.Tendsto.div_atTop tendsto_const_nhds tendsto_id
  refine ⟨hlogit, fun i => ?_⟩
  have hsum : Tendsto (fun T => ∑ j, Real.exp (exponentF E W T i j)) atTop
      (nhds (C : ℝ)) := by
    have h1 : Tendsto (fun T => ∑ j : Fin C, Real.exp (exponentF E W T i j))
        atTop (nhds (∑ _j : Fin C, (1 : ℝ))) := by
      apply tendsto_finset_sum
      intro j _
      have h0 := (Real.continuous_exp.tendsto 0).comp (hlogit i j)
      simpa using h0
    simpa using h1
  have hC0 : (C : ℝ) ≠ 0 := Nat.cast_ne_zero.mpr hC.ne'
  have hlog : Tendsto (fun T => Real.log
      (∑ j, Real.exp (exponentF E W T i j))) atTop
      (nhds (Real.log C)) := (Real.continuousAt_log hC0).tendsto.comp hsum
  have hsub := hlog.sub (hlogit i (y i))
  rw [sub_zero] at hsub
  exact hsub

/-- C6 (witness): concrete `1 × 1` instance with one class. -/
theorem C6_temperature_limit_witness :
    0 < 1 ∧
    ((∀ i j, Tendsto (fun T => exponentF zeroMat zeroMat T i j) atTop
      (nhds 0)) ∧
    (∀ i, Tendsto (fun T => crossEntropy
      (fun j => exponentF zeroMat zeroMat T i j) (zeroLabels i)) atTop
      (nhds (Real.log ((1 : ℕ) : ℝ))))) :=
  ⟨Nat.one_pos, C6_temperature_limit zeroMat zeroMat zeroLabels Nat.one_pos⟩

/-- C8: for a batch of size at least one, positive temperature, logits bounded
in absolute value by `M` and mining weights bounded in absolute value by `Wm`,
every per-sample cross-entropy lies in `[0, log C + 2M]` and the scalar
returned by `compute_loss` differs from the regularization scalar by at most
`(log C + 2M) * Wm`: the output is a single finite real number. -/
theorem C8_finite_output {ι : Type} {B d C : ℕ}
    (cw : ι → (Fin B → Fin C) → Fin B → ℝ)
    (reg : Matrix (Fin C) (Fin d) ℝ → ℝ)
    (W : Matrix (Fin d) (Fin C) ℝ) (T : ℝ)
    (E : Matrix (Fin B) (Fin d) ℝ) (y : Fin B → Fin C) (idx : ι)
    (M Wm : ℝ) (hB : 0 < B) (hT : 0 < T)
    (hM : ∀ i j, |exponentF E W T i j| ≤ M)
    (hw : ∀ i, |cw idx y i| ≤ Wm) :
    (∀ i, 0 ≤ crossEntropy (fun j => exponentF E W T i j) (y i)) ∧
    (∀ i, crossEntropy (fun j => exponentF E W T i j) (y i) ≤
      Real.log C + 2 * M) ∧
    |computeLoss cw reg W T E y idx - reg W.transpose| ≤
      (Real.log C + 2 * M) * Wm := by
  refine ⟨fun i => crossEntropy_nonneg _ _,
    fun i => crossEntropy_le _ _ M (hM i), ?_⟩
  have i0 : Fin B := ⟨0, hB⟩
  have hbound : 0 ≤ Real.log C + 2 * M :=
    le_trans (crossEntropy_nonneg (fun j => exponentF E W T i0 j) (y i0))
      (crossEntropy_le _ _ M (hM i0))
  have heq : computeLoss cw reg W T E y idx - reg W.transpose =
      batchMean (fun i => crossEntropy (fun j => exponentF E W T i j)
        (y i) * cw idx y i) := by
    have h : computeLoss cw reg W T E y idx =
        batchMean (fun i => crossEntropy (fun j => exponentF E W T i j)
          (y i) * cw idx y i) + reg W.transpose := rfl
    rw [h]
    ring
  rw [heq]
  apply abs_batchMean_le hB
  intro i
  rw [abs_mul,
    abs_of_nonneg (crossEntropy_nonneg (fun j => exponentF E W T i j) (y i))]
  exact mul_le_mul (crossEntropy_le _ _ M (hM i)) (hw i) (abs_nonneg _) hbound

/-- C8 (witness): concrete `1 × 1` instance with zero embeddings, unit
temperature and bounds `M = Wm = 1`. -/
theorem C8_finite_output_witness :
    (0 < 1 ∧ (0 : ℝ) < 1 ∧
      (∀ i j, |exponentF zeroMat zeroMat 1 i j| ≤ 1) ∧
      (∀ i, |onesWeights () zeroLabels i| ≤ 1)) ∧
    ((∀ i, 0 ≤ crossEntropy (fun j => exponentF zeroMat zeroMat 1 i j)
      (zeroLabels i)) ∧
    (∀ i, crossEntropy (fun j => exponentF zeroMat zeroMat 1 i j)
      (zeroLabels i) ≤ Real.log ((1 : ℕ) : ℝ) + 2 * 1) ∧
    |computeLoss onesWeights zeroReg zeroMat 1 zeroMat zeroLabels () -
        zeroReg zeroMat.transpose| ≤ (Real.log ((1 : ℕ) : ℝ) + 2 * 1) * 1) := by
  have hM : ∀ i j : Fin 1, |exponentF zeroMat zeroMat 1 i j| ≤ 1 := by
    intro i j
    have h0 : exponentF zeroMat zeroMat 1 i j = 0 := by
      show (zeroMat * l2normalize zeroMat) i j / 1 = 0
      rw [div_one, Matrix.mul_apply, Fin.sum_univ_one,
        show zeroMat i 0 = 0 from rfl, zero_mul]
    rw [h0, abs_zero]
    exact zero_le_one
  have hw : ∀ i : Fin 1, |onesWeights () zeroLabels i| ≤ 1 := by
    intro i
    rw [show onesWeights () zeroLabels i = 1 from rfl, abs_one]
  exact ⟨⟨Nat.one_pos, one_pos, hM, hw⟩,
    C8_finite_output onesWeights zeroReg zeroMat 1 zeroMat zeroLabels () 1 1
      Nat.one_pos one_pos hM hw⟩
